import Mathlib

/-!
Verification of the PTP-style clock-synchronization core of the
MicroPython_Libs repository.  The repository ships the notebook drivers
(ptp_master.ipynb, ptp_periph.ipynb) that call into a ptp module
(mp_libs.time.ptp) whose source is not part of the checkout; the module's
operations are therefore modelled from the specification, while the notebook
code (the callers: the master receive loop and the peripheral round body)
is embedded directly from the notebooks.
-/

namespace PtpModel

/-- Modelled from the spec: the fixed leading marker byte that identifies
protocol traffic (the concrete byte value is not fixed by the spec; any
fixed byte works, we use 80). -/
def MARKER : Nat := 80

/-- Modelled from the spec: the four message kinds of the SyncMessage tagged
variant.  The notebook refers to the first as PtpMsg.SYNC_REQ. -/
inductive PtpMsg where
  | syncReq
  | sync
  | delayReq
  | delayResp
  deriving DecidableEq, Repr

/-- Modelled from the spec: the one-byte message-kind tag of each kind
(concrete values are not fixed by the spec). -/
def kindByte : PtpMsg → Nat
  | .syncReq => 1
  | .sync => 2
  | .delayReq => 3
  | .delayResp => 4

/-- Inverse of kindByte on recognized tag bytes. -/
def byteKind (b : Nat) : Option PtpMsg :=
  if b = 1 then some .syncReq
  else if b = 2 then some .sync
  else if b = 3 then some .delayReq
  else if b = 4 then some .delayResp
  else none

/-- Little-endian byte serialization of a natural number into a fixed width. -/
def bytesLE : Nat → Nat → List Nat
  | 0, _ => []
  | w + 1, n => n % 256 :: bytesLE w (n / 256)

/-- Little-endian byte deserialization. -/
def fromBytesLE : List Nat → Nat
  | [] => 0
  | b :: bs => b + 256 * fromBytesLE bs

/-- Modelled from the spec: number of timestamp fields carried by each kind
(SYNC and DELAY_REQUEST carry one timestamp; DELAY_RESPONSE carries t1 and
t4 back to the peripheral; SYNC_REQUEST carries a cycle count instead). -/
def tsCount : PtpMsg → Nat
  | .syncReq => 0
  | .sync => 1
  | .delayReq => 1
  | .delayResp => 2

/-- Modelled from the spec: width in bytes of a timestamp field, sized to the
monotonic counter's width. -/
def TS_BYTES : Nat := 8

/-- Modelled from the spec: width in bytes of the SYNC_REQUEST cycle count. -/
def CYCLE_BYTES : Nat := 4

/-- Modelled from the spec: payload of a SyncMessage, either an integer cycle
count (SYNC_REQUEST) or a list of timestamp fields (other kinds). -/
inductive PtpPayload where
  | cycles (n : Nat)
  | times (ts : List Nat)
  deriving DecidableEq, Repr

/-- Serialization of a payload (timestamps are concatenated fixed-width
little-endian fields). -/
def payloadBytes : PtpPayload → List Nat
  | .cycles n => bytesLE CYCLE_BYTES n
  | .times ts => ts.foldr (fun t acc => bytesLE TS_BYTES t ++ acc) []

/-- Modelled from the spec: encode(kind, payload) produces the wire message:
marker byte, kind tag byte, then the kind-specific payload. -/
def encode_msg (k : PtpMsg) (p : PtpPayload) : List Nat :=
  MARKER :: kindByte k :: payloadBytes p

/-- Split a byte string into a given number of fixed-width timestamp fields. -/
def decodeTimes : Nat → List Nat → List Nat
  | 0, _ => []
  | c + 1, bs => fromBytesLE (bs.take TS_BYTES) :: decodeTimes c (bs.drop TS_BYTES)

/-- Modelled from the spec: parse(bytes) decodes a recognized message and
fails (returns none) on an unrecognized marker or tag or on a payload of
inconsistent length. -/
def parse_msg : List Nat → Option (PtpMsg × PtpPayload)
  | m :: k :: rest =>
    if m = MARKER then
      match byteKind k with
      | some PtpMsg.syncReq =>
        if rest.length = CYCLE_BYTES then
          some (.syncReq, .cycles (fromBytesLE rest))
        else none
      | some kind =>
        if rest.length = TS_BYTES * tsCount kind then
          some (kind, .times (decodeTimes (tsCount kind) rest))
        else none
      | none => none
    else none
  | _ => none

/-- A (kind, payload) pair is valid when the payload shape matches the kind
and every numeric field fits its wire width. -/
def validMsg : PtpMsg → PtpPayload → Bool
  | .syncReq, .cycles n => n < 256 ^ CYCLE_BYTES
  | .syncReq, .times _ => false
  | _, .cycles _ => false
  | k, .times ts => ts.length == tsCount k && ts.all (fun t => decide (t < 256 ^ TS_BYTES))

/-- Modelled from the spec: is_protocol_message performs a cheap structural
check of the fixed leading marker byte without decoding. -/
def is_ptp_msg : List Nat → Bool
  | [] => false
  | m :: _ => m == MARKER

/-- Modelled from the spec: signed difference of two monotonic-counter
readings, taken modulo the counter's range so that counter wraparound does
not corrupt the difference.  The period is passed explicitly; the result
lies in the half-open range from minus half the period to half the period. -/
def tdiff (period a b : Nat) : Int :=
  ((a : Int) - (b : Int) + (period : Int) / 2) % (period : Int) - (period : Int) / 2

/-- Modelled from the spec: the pure Offset Calculator.
offset is half of (t2 - t1) + (t3 - t4) and delay is half of
(t4 - t1) - (t3 - t2), each difference computed modulo the counter's range,
the halving being the floor division of the host language. -/
def calculate_offset (period t1 t2 t3 t4 : Nat) : Int × Int :=
  (Int.fdiv (tdiff period t2 t1 + tdiff period t3 t4) 2,
   Int.fdiv (tdiff period t4 t1 - tdiff period t3 t2) 2)

/-- Modelled from the spec: the monotonic counter's range used by the
sequencer pipeline (the standard MicroPython ticks period). -/
def TICKS_PERIOD : Nat := 2 ^ 30

/-- Modelled from the spec: an OffsetSample (offset, round-trip delay) is
valid when its delay is nonnegative; a negative delay signals a corrupted
or lost-message cycle and must be filtered out. -/
def isValidSample (s : Int × Int) : Bool := decide (0 ≤ s.2)

/-- Modelled from the spec: the round-level error surfaced by the Sample
Filter when every cycle of a round was invalid. -/
inductive PtpError where
  | noValidSamples
  deriving DecidableEq, Repr

/-- Modelled from the spec: the Sample Filter.  Samples flagged invalid are
discarded; with zero valid samples it fails with NoValidSamples; otherwise
it returns the exact arithmetic mean of the valid offsets. -/
def process_offsets (samples : List (Int × Int)) : Except PtpError ℚ :=
  let valid := samples.filter isValidSample
  if valid.isEmpty then .error .noValidSamples
  else .ok (((valid.map Prod.fst).sum : ℚ) / (valid.length : ℚ))

/-- ASCII decimal digits, most significant first, with a structural fuel
argument (the number itself bounds the digit count). -/
def encNatAux : Nat → Nat → List Nat
  | 0, n => [48 + n]
  | fuel + 1, n =>
    if n < 10 then [48 + n] else encNatAux fuel (n / 10) ++ [48 + n % 10]

/-- ASCII decimal digits of a natural number, most significant first
(the digits of the host language's str of a nonnegative integer). -/
def encNat (n : Nat) : List Nat := encNatAux n n

/-- Value of a list of ASCII decimal digits, most significant first. -/
def decDigits (l : List Nat) : Nat :=
  l.foldl (fun acc d => 10 * acc + (d - 48)) 0

/-- Whether a byte is an ASCII decimal digit. -/
def isDigitB (d : Nat) : Bool := 48 ≤ d && d ≤ 57

/-- Modelled from the spec: the real-time clock's parse of the ASCII payload
handed to its additive-offset interface: an optional leading minus sign
followed by at least one decimal digit, read as a signed integer. -/
def decodeDecimal (l : List Nat) : Option Int :=
  match l with
  | [] => none
  | d :: rest =>
    if d = 45 then
      if !rest.isEmpty && rest.all isDigitB then some (-(decDigits rest : Int))
      else none
    else
      if (d :: rest).all isDigitB then some ((decDigits (d :: rest) : Int))
      else none

/-- ASCII bytes of the host language's str of a signed integer: a minus sign
(byte 45) for negative values, then the decimal digits. -/
def encInt (n : Int) : List Nat :=
  if n < 0 then 45 :: encNat n.natAbs else encNat n.toNat

/-- The byte encoding the peripheral notebook hands to rtc.offset:
str(ave_offset).encode().  An integral correction encodes as its signed
decimal string; a non-integral rational renders numerator, a solidus
(byte 47) and denominator. -/
def encode_correction (v : ℚ) : List Nat :=
  if v.den = 1 then encInt v.num else encInt v.num ++ 47 :: encNat v.den

/-- Modelled from the spec: the Clock Applier.  rtc.offset(payload) parses
the ASCII payload as a signed integer and adds it to the real-time clock;
an unparseable payload leaves the clock unchanged. -/
def rtc_offset (st : Int) (payload : List Nat) : Int :=
  match decodeDecimal payload with
  | some c => st + c
  | none => st

/-- A TimestampQuad (t1, t2, t3, t4). -/
abbrev Quad := Nat × Nat × Nat × Nat

/-- Modelled from the spec: the environment's outcome of one exchange cycle —
either the four captured timestamps, or a per-cycle timeout. -/
inductive CycleOutcome where
  | success (t1 t2 t3 t4 : Nat)
  | timeout
  deriving DecidableEq, Repr

/-- Modelled from the spec: the quad recorded for an abandoned (timed-out)
cycle.  Its timestamp ordering is inconsistent (t4 is before t1), which the
Offset Calculator maps to a negative delay, flagging the sample invalid. -/
def invalidQuad : Quad := (1, 0, 0, 0)

/-- The quad a cycle contributes to the round's output. -/
def cycleQuad : CycleOutcome → Quad
  | .success t1 t2 t3 t4 => (t1, t2, t3, t4)
  | .timeout => invalidQuad

/-- The sequencer loop: starting at cycle index i, run r more cycles,
recording one quad per cycle whatever its outcome. -/
def seqLoop (oracle : Nat → CycleOutcome) : Nat → Nat → List Quad
  | _, 0 => []
  | i, r + 1 => cycleQuad (oracle i) :: seqLoop oracle (i + 1) r

/-- Modelled from the spec: the Master Sequencer.  run_master_round runs
num_sync_cycles exchange cycles, abandoning a cycle on timeout and
continuing, and returns every captured TimestampQuad. -/
def sequence_master (num_sync_cycles : Nat) (oracle : Nat → CycleOutcome) :
    List Quad :=
  seqLoop oracle 0 num_sync_cycles

/-- Modelled from the spec: the Peripheral Sequencer.  run_peripheral_round
optionally initiates with a SYNC_REQUEST (which does not change the captured
data), runs num_sync_cycles cycles, and returns every captured TimestampQuad;
it does not touch the real-time clock (per the spec only the Clock Applier
mutates the clock, once per round, after filtering). -/
def sequence_periph (initiateSync : Bool) (num_sync_cycles : Nat)
    (oracle : Nat → CycleOutcome) : List Quad :=
  seqLoop oracle 0 num_sync_cycles

/-- The offset sample of one quad, as the peripheral notebook computes it. -/
def mkSample (q : Quad) : Int × Int :=
  calculate_offset TICKS_PERIOD q.1 q.2.1 q.2.2.1 q.2.2.2

/-- The peripheral notebook's offsets list (its list comprehension over the
returned timestamps). -/
def periph_samples (ts : List Quad) : List (Int × Int) := ts.map mkSample

/-- The clock-commit stage of the peripheral notebook: on a successful
filter result commit str(ave_offset).encode() via rtc.offset; on failure the
error propagates and rtc.offset is never called, so the clock is unchanged. -/
def periph_apply_stage (r : Except PtpError ℚ) (st : Int) : Int :=
  match r with
  | .ok v => rtc_offset st (encode_correction v)
  | .error _ => st

/-- The peripheral notebook's round body: run sequence_periph, map the quads
through calculate_offset, aggregate with process_offsets, and commit the
result to the real-time clock. -/
def periph_round (initiateSync : Bool) (num_sync_cycles : Nat)
    (oracle : Nat → CycleOutcome) (st : Int) : Int :=
  periph_apply_stage
    (process_offsets (periph_samples (sequence_periph initiateSync num_sync_cycles oracle)))
    st

/-- The byte payload the peripheral notebook's round body passes to
rtc.offset, when the filter succeeds. -/
def periph_payload (initiateSync : Bool) (num_sync_cycles : Nat)
    (oracle : Nat → CycleOutcome) : Option (List Nat) :=
  match process_offsets
      (periph_samples (sequence_periph initiateSync num_sync_cycles oracle)) with
  | .ok v => some (encode_correction v)
  | .error _ => none

/-- The master notebook's receive loop: protocol messages are parsed (an
unparseable marker-recognized message is dropped); every packet failing the
marker check is passed through untouched. -/
def masterRxLoop : List (List Nat) → List (PtpMsg × PtpPayload) × List (List Nat)
  | [] => ([], [])
  | p :: rest =>
    let r := masterRxLoop rest
    if is_ptp_msg p then
      match parse_msg p with
      | some m => (m :: r.1, r.2)
      | none => r
    else (r.1, p :: r.2)

theorem bytesLE_length (w n : Nat) : (bytesLE w n).length = w := by
  induction w generalizing n with
  | zero => rfl
  | succ w ih => simp [bytesLE, ih]

theorem fromBytesLE_bytesLE (w n : Nat) (h : n < 256 ^ w) :
    fromBytesLE (bytesLE w n) = n := by
  induction w generalizing n with
  | zero =>
    simp [pow_zero] at h
    simp [bytesLE, fromBytesLE, h]
  | succ w ih =>
    have hdiv : n / 256 < 256 ^ w := by
      rw [Nat.div_lt_iff_lt_mul (by norm_num)]
      calc n < 256 ^ (w + 1) := h
        _ = 256 ^ w * 256 := by ring
    simp [bytesLE, fromBytesLE, ih _ hdiv]
    omega

theorem payloadTimes_length (ts : List Nat) :
    (payloadBytes (.times ts)).length = TS_BYTES * ts.length := by
  induction ts with
  | nil => simp [payloadBytes]
  | cons t ts ih =>
    show (bytesLE TS_BYTES t ++ payloadBytes (.times ts)).length = _
    simp [bytesLE_length, ih]
    ring

theorem decodeTimes_payload (ts : List Nat) (h : ∀ t ∈ ts, t < 256 ^ TS_BYTES) :
    decodeTimes ts.length (payloadBytes (.times ts)) = ts := by
  induction ts with
  | nil => rfl
  | cons t ts ih =>
    have hb : (bytesLE TS_BYTES t).length = TS_BYTES := bytesLE_length _ _
    have h1 : (bytesLE TS_BYTES t ++ payloadBytes (.times ts)).take TS_BYTES
        = bytesLE TS_BYTES t := by
      rw [← hb]; exact List.take_left _ _
    have h2 : (bytesLE TS_BYTES t ++ payloadBytes (.times ts)).drop TS_BYTES
        = payloadBytes (.times ts) := by
      rw [← hb]; exact List.drop_left _ _
    show decodeTimes (ts.length + 1) (bytesLE TS_BYTES t ++ payloadBytes (.times ts))
        = t :: ts
    rw [decodeTimes, h1, h2, fromBytesLE_bytesLE _ _ (h t (by simp)),
      ih (fun x hx => h x (by simp [hx]))]

theorem tdiff_eq (m a b : Nat) (hm : 0 < m)
    (hlo : -(m : Int) ≤ (a : Int) - b) (hhi : (a : Int) - b < m) :
    tdiff (2 * m) a b = (a : Int) - b := by
  unfold tdiff
  have h2 : ((2 * m : Nat) : Int) = 2 * (m : Int) := by push_cast; ring
  rw [h2]
  have hh : (2 * (m : Int)) / 2 = m := by omega
  rw [hh]
  have hmod : ((a : Int) - b + m) % (2 * m) = (a : Int) - b + m :=
    Int.emod_eq_of_lt (by omega) (by omega)
  rw [hmod]
  ring

/-- C1: for every quad of counter readings whose pairwise differences lie in
the representable half-range, calculate_offset returns exactly the pair with
offset half of (t2 - t1) + (t3 - t4) and delay half of (t4 - t1) - (t3 - t2),
in exact integer arithmetic, the differences being taken modulo the
counter's range. -/
theorem calculate_offset_exact (m t1 t2 t3 t4 : Nat) (o d : Int) (hm : 0 < m)
    (h21l : -(m : Int) ≤ (t2 : Int) - t1) (h21r : (t2 : Int) - t1 < m)
    (h34l : -(m : Int) ≤ (t3 : Int) - t4) (h34r : (t3 : Int) - t4 < m)
    (h41l : -(m : Int) ≤ (t4 : Int) - t1) (h41r : (t4 : Int) - t1 < m)
    (h32l : -(m : Int) ≤ (t3 : Int) - t2) (h32r : (t3 : Int) - t2 < m)
    (ho : ((t2 : Int) - t1) + ((t3 : Int) - t4) = 2 * o)
    (hd : ((t4 : Int) - t1) - ((t3 : Int) - t2) = 2 * d) :
    calculate_offset (2 * m) t1 t2 t3 t4 = (o, d) := by
  unfold calculate_offset
  rw [tdiff_eq m t2 t1 hm h21l h21r, tdiff_eq m t3 t4 hm h34l h34r,
    tdiff_eq m t4 t1 hm h41l h41r, tdiff_eq m t3 t2 hm h32l h32r, ho, hd,
    Int.mul_fdiv_cancel_left o (by norm_num), Int.mul_fdiv_cancel_left d (by norm_num)]

/-- Witness for C1 at a concrete quad with period 2 to the 30th. -/
theorem calculate_offset_exact_witness :
    calculate_offset (2 * 536870912) 0 60 70 30 = (50, 10) :=
  calculate_offset_exact 536870912 0 60 70 30 50 10 (by norm_num)
    (by norm_num) (by norm_num) (by norm_num) (by norm_num) (by norm_num)
    (by norm_num) (by norm_num) (by norm_num) (by norm_num) (by norm_num)

/-- C5 counterexample: the quad (0, 10, 10, 20) satisfies the claim's
hypotheses (t2 - t1 equals t4 - t3, and t3 equals t2), yet calculate_offset
returns offset 0 and delay 10, not offset 10 and delay 0 as claimed: the
claim has the two components swapped. -/
theorem calculate_offset_zero_delay_cex :
    (10 : Int) - 0 = (20 : Int) - 10 ∧ (10 : Nat) = 10 ∧
    calculate_offset TICKS_PERIOD 0 10 10 20 = (0, 10) ∧
    calculate_offset TICKS_PERIOD 0 10 10 20 ≠ (10, 0) := by decide

/-- C5 (amended): for every quad with t3 equal to t2 and t2 - t1 equal to
t4 - t3 (zero clock skew, symmetric transit), with the doubled difference in
the representable half-range, calculate_offset returns offset 0 and delay
t2 - t1. -/
theorem calculate_offset_symmetric (m t1 t2 t3 t4 : Nat) (hm : 0 < m)
    (h3 : t3 = t2) (hsym : (t2 : Int) - t1 = (t4 : Int) - t3)
    (hlo : -(m : Int) ≤ 2 * ((t2 : Int) - t1))
    (hhi : 2 * ((t2 : Int) - t1) < m) :
    calculate_offset (2 * m) t1 t2 t3 t4 = (0, (t2 : Int) - t1) := by
  apply calculate_offset_exact m t1 t2 t3 t4 0 ((t2 : Int) - t1) hm
  all_goals omega

/-- Witness for C5 (amended) at the quad (0, 10, 10, 20). -/
theorem calculate_offset_symmetric_witness :
    calculate_offset (2 * 536870912) 0 10 10 20 = (0, (10 : Int) - 0) :=
  calculate_offset_symmetric 536870912 0 10 10 20 (by norm_num) (by norm_num)
    (by norm_num) (by norm_num) (by norm_num)

/-- C4: decoding the encoding round-trips exactly for every valid
(kind, payload) pair. -/
theorem parse_encode_roundtrip (k : PtpMsg) (p : PtpPayload)
    (h : validMsg k p = true) : parse_msg (encode_msg k p) = some (k, p) := by
  cases k <;> cases p <;> simp [validMsg] at h
  case syncReq.cycles n =>
    simp [encode_msg, parse_msg, MARKER, kindByte, byteKind, payloadBytes,
      bytesLE_length, fromBytesLE_bytesLE _ _ h]
  case sync.times ts =>
    obtain ⟨hlen, hts⟩ := h
    norm_num [tsCount] at hlen
    have hdec := decodeTimes_payload ts hts
    rw [hlen] at hdec
    simp [encode_msg, parse_msg, MARKER, kindByte, byteKind,
      payloadTimes_length, hlen, tsCount, hdec]
  case delayReq.times ts =>
    obtain ⟨hlen, hts⟩ := h
    norm_num [tsCount] at hlen
    have hdec := decodeTimes_payload ts hts
    rw [hlen] at hdec
    simp [encode_msg, parse_msg, MARKER, kindByte, byteKind,
      payloadTimes_length, hlen, tsCount, hdec]
  case delayResp.times ts =>
    obtain ⟨hlen, hts⟩ := h
    norm_num [tsCount] at hlen
    have hdec := decodeTimes_payload ts hts
    rw [hlen] at hdec
    simp [encode_msg, parse_msg, MARKER, kindByte, byteKind,
      payloadTimes_length, hlen, tsCount, hdec]

/-- Witness for C4 on a SYNC_REQUEST carrying 15 cycles and a DELAY_RESPONSE
carrying two timestamps. -/
theorem parse_encode_roundtrip_witness :
    parse_msg (encode_msg .syncReq (.cycles 15)) = some (.syncReq, .cycles 15) ∧
    parse_msg (encode_msg .delayResp (.times [123456789, 987654321]))
      = some (.delayResp, .times [123456789, 987654321]) :=
  ⟨parse_encode_roundtrip _ _ (by decide), parse_encode_roundtrip _ _ (by decide)⟩

theorem encNatAux_decDigits (fuel n : Nat) (h : n ≤ fuel) :
    decDigits (encNatAux fuel n) = n := by
  induction fuel generalizing n with
  | zero =>
    have : n = 0 := by omega
    simp [this, encNatAux, decDigits]
  | succ fuel ih =>
    rw [encNatAux]
    split
    · simp [decDigits]
    · have hlt : n / 10 < n := Nat.div_lt_self (by omega) (by omega)
      unfold decDigits
      rw [List.foldl_append]
      simp only [List.foldl_cons, List.foldl_nil]
      have := ih (n / 10) (by omega)
      unfold decDigits at this
      rw [this]
      omega

theorem decDigits_encNat (n : Nat) : decDigits (encNat n) = n :=
  encNatAux_decDigits n n le_rfl

theorem encNatAux_digits (fuel n : Nat) (h : n ≤ fuel) :
    ∀ d ∈ encNatAux fuel n, 48 ≤ d ∧ d ≤ 57 := by
  induction fuel generalizing n with
  | zero =>
    have : n = 0 := by omega
    simp [this, encNatAux]
  | succ fuel ih =>
    rw [encNatAux]
    split
    · intro d hd
      simp at hd
      omega
    · intro d hd
      rw [List.mem_append] at hd
      rcases hd with hd | hd
      · have hlt : n / 10 < n := Nat.div_lt_self (by omega) (by omega)
        exact ih (n / 10) (by omega) d hd
      · simp at hd
        have : n % 10 < 10 := Nat.mod_lt _ (by omega)
        omega

theorem encNat_digits (n : Nat) : ∀ d ∈ encNat n, 48 ≤ d ∧ d ≤ 57 :=
  encNatAux_digits n n le_rfl

theorem encNatAux_ne_nil (fuel n : Nat) : encNatAux fuel n ≠ [] := by
  cases fuel with
  | zero => simp [encNatAux]
  | succ fuel =>
    rw [encNatAux]
    split <;> simp

theorem encNat_ne_nil (n : Nat) : encNat n ≠ [] := encNatAux_ne_nil n n

theorem encNat_all_digits (n : Nat) : (encNat n).all isDigitB = true := by
  rw [List.all_eq_true]
  intro d hd
  have := encNat_digits n d hd
  simp [isDigitB]
  omega

theorem decodeDecimal_encInt (n : Int) : decodeDecimal (encInt n) = some n := by
  unfold encInt
  split
  · rename_i h
    have hne : (encNat n.natAbs).isEmpty = false := by
      cases hE : encNat n.natAbs with
      | nil => exact absurd hE (encNat_ne_nil _)
      | cons a as => rfl
    simp only [decodeDecimal, if_pos rfl, hne, encNat_all_digits, Bool.not_false,
      Bool.true_and, if_pos]
    rw [decDigits_encNat]
    congr 1
    omega
  · rename_i h
    obtain ⟨d, rest, hE⟩ := List.exists_cons_of_ne_nil (encNat_ne_nil n.toNat)
    have hd : 48 ≤ d ∧ d ≤ 57 := encNat_digits _ d (by rw [hE]; simp)
    have h45 : ¬(d = 45) := by omega
    have hall : (d :: rest).all isDigitB = true := by
      rw [← hE]; exact encNat_all_digits _
    rw [hE]
    simp only [decodeDecimal, if_neg h45, hall, if_pos]
    have hdec := decDigits_encNat n.toNat
    rw [hE] at hdec
    rw [hdec]
    congr 1
    omega

/-- C9: the Clock Applier is additive (committing the encoding of c adds c
to the real-time clock), so committing the encoding of a zero correction
leaves the real-time clock unchanged. -/
theorem rtc_offset_zero_noop :
    (∀ st c : Int, rtc_offset st (encInt c) = st + c) ∧
    (∀ st : Int, rtc_offset st (encInt 0) = st) := by
  constructor
  · intro st c
    simp [rtc_offset, decodeDecimal_encInt]
  · intro st
    simp [rtc_offset, decodeDecimal_encInt]

/-- C2: with zero valid samples the Sample Filter fails with NoValidSamples,
and the peripheral's commit stage leaves the real-time clock unchanged on
that failure. -/
theorem process_offsets_no_valid (samples : List (Int × Int))
    (hall : ∀ s ∈ samples, s.2 < 0) :
    process_offsets samples = .error .noValidSamples ∧
    ∀ st : Int, periph_apply_stage (process_offsets samples) st = st := by
  have hfil : samples.filter isValidSample = [] := by
    rw [List.filter_eq_nil_iff]
    intro a ha
    have := hall a ha
    simp [isValidSample]
    omega
  have herr : process_offsets samples = .error .noValidSamples := by
    simp only [process_offsets, hfil]
    rfl
  exact ⟨herr, fun st => by rw [herr]; rfl⟩

/-- Witness for C2 on a list of two invalid samples. -/
theorem process_offsets_no_valid_witness :
    process_offsets [((5 : Int), (-1 : Int)), (7, -3)] = .error .noValidSamples ∧
    ∀ st : Int,
      periph_apply_stage (process_offsets [((5 : Int), (-1 : Int)), (7, -3)]) st = st :=
  process_offsets_no_valid _ (by decide)

/-- C7: on a non-empty list of all-valid samples the Sample Filter returns
exactly the arithmetic mean of the offsets.  Determinism is inherent: the
embedding is a pure function, so equal inputs yield identical outputs. -/
theorem process_offsets_mean (samples : List (Int × Int))
    (hne : samples ≠ []) (hall : ∀ s ∈ samples, isValidSample s = true) :
    process_offsets samples
      = .ok (((samples.map Prod.fst).sum : ℚ) / (samples.length : ℚ)) := by
  have hfil : samples.filter isValidSample = samples := List.filter_eq_self.mpr hall
  have hemp : samples.isEmpty = false := by
    cases samples with
    | nil => exact absurd rfl hne
    | cons a as => rfl
  simp only [process_offsets, hfil, hemp]
  rfl

/-- Witness for C7 on the all-valid samples (4, 1) and (6, 3). -/
theorem process_offsets_mean_witness :
    process_offsets [((4 : Int), (1 : Int)), (6, 3)]
      = .ok ((([((4 : Int), (1 : Int)), (6, 3)].map Prod.fst).sum : ℚ)
          / (([((4 : Int), (1 : Int)), (6, 3)] : List (Int × Int)).length : ℚ)) :=
  process_offsets_mean _ (by decide) (by decide)

theorem seqLoop_length (oracle : Nat → CycleOutcome) (i r : Nat) :
    (seqLoop oracle i r).length = r := by
  induction r generalizing i with
  | zero => rfl
  | succ r ih => simp [seqLoop, ih]

theorem seqLoop_getElem (oracle : Nat → CycleOutcome) (i r j : Nat) (h : j < r) :
    (seqLoop oracle i r)[j]? = some (cycleQuad (oracle (i + j))) := by
  induction r generalizing i j with
  | zero => omega
  | succ r ih =>
    cases j with
    | zero => simp [seqLoop]
    | succ j =>
      show (cycleQuad (oracle i) :: seqLoop oracle (i + 1) r)[j + 1]? = _
      rw [List.getElem?_cons_succ, show i + (j + 1) = (i + 1) + j by omega]
      exact ih (i + 1) j (by omega)

/-- C6: for every cycle count and every pattern of per-cycle outcomes the
master round returns exactly one TimestampQuad per cycle: a timed-out cycle
contributes the flagged-invalid quad and the round proceeds, a successful
cycle contributes its captured quad, and the flagged-invalid quad's offset
sample is rejected by the validity test. -/
theorem sequence_master_round (n : Nat) (oracle : Nat → CycleOutcome) :
    (sequence_master n oracle).length = n ∧
    (∀ i, i < n → oracle i = .timeout →
      (sequence_master n oracle)[i]? = some invalidQuad) ∧
    (∀ i t1 t2 t3 t4, i < n → oracle i = .success t1 t2 t3 t4 →
      (sequence_master n oracle)[i]? = some (t1, t2, t3, t4)) ∧
    isValidSample (mkSample invalidQuad) = false := by
  refine ⟨seqLoop_length _ _ _, ?_, ?_, by decide⟩
  · intro i hi ho
    rw [sequence_master, seqLoop_getElem _ _ _ _ hi]
    simp [ho, cycleQuad]
  · intro i t1 t2 t3 t4 hi ho
    rw [sequence_master, seqLoop_getElem _ _ _ _ hi]
    simp [ho, cycleQuad]

/-- Witness for C6 on a two-cycle round whose first cycle times out. -/
theorem sequence_master_round_witness :
    (sequence_master 2
      (fun i => if i = 0 then CycleOutcome.timeout else .success 5 6 7 8)).length = 2 ∧
    (sequence_master 2
      (fun i => if i = 0 then CycleOutcome.timeout else .success 5 6 7 8))[0]?
      = some invalidQuad ∧
    (sequence_master 2
      (fun i => if i = 0 then CycleOutcome.timeout else .success 5 6 7 8))[1]?
      = some (5, 6, 7, 8) := by
  have h := sequence_master_round 2
    (fun i => if i = 0 then CycleOutcome.timeout else .success 5 6 7 8)
  exact ⟨h.1, h.2.1 0 (by omega) rfl, h.2.2.1 1 5 6 7 8 (by omega) rfl⟩

/-- C3 counterexample: in a concrete one-cycle round the Peripheral Sequencer
hands exactly the raw captured TimestampQuad back to the caller, and the
clock correction is computed and applied only by the caller stage after the
sequencer has returned (the round body moves the clock from 0 to 50 while
the sequencer's own result is just the raw quad list). -/
theorem sequence_periph_raw_cex :
    sequence_periph true 1 (fun _ => CycleOutcome.success 0 60 70 30)
      = [(0, 60, 70, 30)] ∧
    periph_round true 1 (fun _ => CycleOutcome.success 0 60 70 30) 0 = 50 ∧
    (0 : Int) ≠ 50 := by
  refine ⟨by decide, ?_, by decide⟩
  have h1 : periph_samples
      (sequence_periph true 1 (fun _ => CycleOutcome.success 0 60 70 30))
      = [(50, 10)] := by decide
  have h2 : process_offsets [((50 : Int), (10 : Int))] = .ok 50 := by
    simp only [process_offsets]
    norm_num [isValidSample, List.filter]
  unfold periph_round
  rw [h1, h2]
  show rtc_offset 0 (encode_correction 50) = 50
  have h3 : encode_correction 50 = [53, 48] := by decide
  rw [h3]
  decide

/-- C3 (amended): sequence_periph returns the raw per-cycle TimestampQuads
to the caller, and it is the caller (the notebook round body) that runs the
Offset Calculator and Sample Filter over them and applies the resulting
correction to the real-time clock, once, after the sequencer returns. -/
theorem periph_round_caller_applies (initiateSync : Bool) (n : Nat)
    (oracle : Nat → CycleOutcome) (st : Int) (v : ℚ)
    (hv : process_offsets
      (periph_samples (sequence_periph initiateSync n oracle)) = .ok v)
    (hden : v.den = 1) :
    (∀ i, i < n →
      (sequence_periph initiateSync n oracle)[i]? = some (cycleQuad (oracle i))) ∧
    periph_round initiateSync n oracle st = st + v.num := by
  constructor
  · intro i hi
    rw [sequence_periph, seqLoop_getElem _ _ _ _ hi]
    simp
  · have hstep : periph_round initiateSync n oracle st
        = periph_apply_stage (Except.ok v) st := by
      unfold periph_round
      rw [hv]
    rw [hstep]
    show rtc_offset st (encode_correction v) = st + v.num
    unfold encode_correction
    rw [if_pos hden]
    simp [rtc_offset, decodeDecimal_encInt]

/-- Witness for C3 (amended) on a concrete one-cycle round with mean 50. -/
theorem periph_round_caller_applies_witness :
    periph_round true 1 (fun _ => CycleOutcome.success 0 60 70 30) 7
      = 7 + (50 : ℚ).num :=
  (periph_round_caller_applies true 1 _ 7 50
    (by
      have h1 : periph_samples
          (sequence_periph true 1 (fun _ => CycleOutcome.success 0 60 70 30))
          = [(50, 10)] := by decide
      rw [h1]
      simp only [process_offsets]
      norm_num [isValidSample, List.filter])
    (by norm_num)).2

/-- C10: when the filter succeeds, the byte payload the peripheral round
commits is exactly the ASCII decimal encoding of the value process_offsets
returned, that encoding decodes back to the same signed integer, and the
clock is updated by applying exactly that payload. -/
theorem periph_commit_encoding (initiateSync : Bool) (n : Nat)
    (oracle : Nat → CycleOutcome) (st : Int) (v : ℚ)
    (hv : process_offsets
      (periph_samples (sequence_periph initiateSync n oracle)) = .ok v)
    (hden : v.den = 1) :
    periph_payload initiateSync n oracle = some (encInt v.num) ∧
    decodeDecimal (encInt v.num) = some v.num ∧
    periph_round initiateSync n oracle st = rtc_offset st (encInt v.num) := by
  have henc : encode_correction v = encInt v.num := by
    unfold encode_correction
    rw [if_pos hden]
  refine ⟨?_, decodeDecimal_encInt _, ?_⟩
  · have hstep : periph_payload initiateSync n oracle
        = some (encode_correction v) := by
      unfold periph_payload
      rw [hv]
    rw [hstep, henc]
  · have hstep : periph_round initiateSync n oracle st
        = periph_apply_stage (Except.ok v) st := by
      unfold periph_round
      rw [hv]
    rw [hstep]
    show rtc_offset st (encode_correction v) = rtc_offset st (encInt v.num)
    rw [henc]

/-- Witness for C10 on a concrete one-cycle round with mean minus 60. -/
theorem periph_commit_encoding_witness :
    periph_payload false 1 (fun _ => CycleOutcome.success 100 40 50 110)
      = some (encInt ((-60 : ℚ)).num) :=
  (periph_commit_encoding false 1 _ 0 (-60)
    (by
      have h1 : periph_samples
          (sequence_periph false 1 (fun _ => CycleOutcome.success 100 40 50 110))
          = [(-60, 0)] := by decide
      rw [h1]
      simp only [process_offsets]
      norm_num [isValidSample, List.filter])
    (by norm_num)).1

/-- C8: the protocol-recognition check is a total boolean structural check of
the fixed marker prefix (it depends on nothing but the first byte and is
defined on every payload, including the empty one), and the master receive
loop passes every payload failing the marker check through untouched. -/
theorem is_ptp_msg_total_passthrough :
    (∀ pkts : List (List Nat),
      (masterRxLoop pkts).2 = pkts.filter (fun p => !is_ptp_msg p)) ∧
    (∀ p q : List Nat, p.take 1 = q.take 1 → is_ptp_msg p = is_ptp_msg q) ∧
    is_ptp_msg [] = false := by
  refine ⟨?_, ?_, rfl⟩
  · intro pkts
    induction pkts with
    | nil => rfl
    | cons p rest ih =>
      by_cases hp : is_ptp_msg p
      · cases hparse : parse_msg p <;> simp [masterRxLoop, hp, hparse, ih]
      · simp [masterRxLoop, hp, ih]
  · intro p q h
    cases p <;> cases q <;> simp_all [is_ptp_msg]

/-- Witness for C8: recognition of a packet is decided by its first byte. -/
theorem is_ptp_msg_total_passthrough_witness :
    is_ptp_msg [80, 1, 2, 3] = is_ptp_msg [80] :=
  is_ptp_msg_total_passthrough.2.1 _ _ (by decide)

end PtpModel
